import Mathlib

/-!
Verification development for the gibrun repository (Go): a Redis-backed
fixed-window rate limiter, a cursor-based key scanner, and a batched
key migrator.  Go code is shallowly embedded: machine integers become
`Int`/`Nat`, `time.Duration` and timestamps become `Int` nanoseconds,
Redis is modelled as the ideal key-value collaborator the code assumes
(atomic increment / expire / ttl, paged scan with a cursor that wraps to
the start token), and fallible operations return `Option`/`Except`.
-/

namespace Gibrun

/-! ### Decimal formatting (model of Go `fmt.Sprintf("%d", n)`)

`buildKey` renders the window index with `%d`.  We model decimal
rendering with an explicit recursion so that injectivity and
character-content facts are provable. -/

/-- Decimal digit characters of `n`, most significant first; `[]` for `0`. -/
def natDigs (n : Nat) : List Char :=
  if _h : n = 0 then []
  else natDigs (n / 10) ++ [Nat.digitChar (n % 10)]
termination_by n
decreasing_by exact Nat.div_lt_self (Nat.pos_of_ne_zero _h) (by decide)

/-- Decimal rendering of a natural number. -/
def natStr (n : Nat) : String :=
  if n = 0 then "0" else String.mk (natDigs n)

/-- Decimal rendering of an integer, the model of Go's `%d` on `int64`. -/
def intStr : Int → String
  | .ofNat m => natStr m
  | .negSucc m => "-" ++ natStr (m + 1)

theorem natDigs_zero : natDigs 0 = [] := by
  rw [natDigs]
  simp

theorem natDigs_of_ne_zero {n : Nat} (h : n ≠ 0) :
    natDigs n = natDigs (n / 10) ++ [Nat.digitChar (n % 10)] := by
  rw [natDigs]; simp [h]

theorem natDigs_nil_iff (n : Nat) : natDigs n = [] ↔ n = 0 := by
  constructor
  · intro h
    by_contra hn
    rw [natDigs_of_ne_zero hn] at h
    simp at h
  · rintro rfl
    exact natDigs_zero

theorem mem_natDigs (n : Nat) : ∀ c ∈ natDigs n, ∃ m, m < 10 ∧ c = Nat.digitChar m := by
  induction n using Nat.strong_induction_on with
  | _ n ih =>
    intro c hc
    by_cases hn : n = 0
    · subst hn
      rw [natDigs_zero] at hc
      simp at hc
    · rw [natDigs_of_ne_zero hn] at hc
      rcases List.mem_append.1 hc with h | h
      · exact ih (n / 10) (Nat.div_lt_self (Nat.pos_of_ne_zero hn) (by decide)) c h
      · refine ⟨n % 10, Nat.mod_lt _ (by decide), ?_⟩
        simpa using h

theorem digitChar_ne_colon : ∀ m, m < 10 → Nat.digitChar m ≠ ':' := by decide

theorem digitChar_ne_dash : ∀ m, m < 10 → Nat.digitChar m ≠ '-' := by decide

theorem digitChar_injOn :
    ∀ a, a < 10 → ∀ b, b < 10 → Nat.digitChar a = Nat.digitChar b → a = b := by decide

theorem colon_not_mem_natDigs (n : Nat) : ':' ∉ natDigs n := by
  intro h
  obtain ⟨m, hm, he⟩ := mem_natDigs n ':' h
  exact digitChar_ne_colon m hm he.symm

theorem natDigs_inj : ∀ m n : Nat, natDigs m = natDigs n → m = n := by
  intro m
  induction m using Nat.strong_induction_on with
  | _ m ih =>
    intro n h
    by_cases hm : m = 0
    · subst hm
      rw [natDigs_zero] at h
      exact ((natDigs_nil_iff n).1 h.symm).symm
    · by_cases hn : n = 0
      · subst hn
        rw [natDigs_zero] at h
        exact absurd ((natDigs_nil_iff m).1 h) hm
      · rw [natDigs_of_ne_zero hm, natDigs_of_ne_zero hn] at h
        obtain ⟨h1, h2⟩ := List.append_inj' h (by simp)
        have hd : m % 10 = n % 10 :=
          digitChar_injOn _ (Nat.mod_lt _ (by decide)) _ (Nat.mod_lt _ (by decide))
            (by simpa using h2)
        have hq : m / 10 = n / 10 :=
          ih (m / 10) (Nat.div_lt_self (Nat.pos_of_ne_zero hm) (by decide)) (n / 10) h1
        omega

theorem natStr_data (n : Nat) :
    (natStr n).data = if n = 0 then ['0'] else natDigs n := by
  unfold natStr
  split <;> rfl

theorem mem_natStr (n : Nat) :
    ∀ c ∈ (natStr n).data, ∃ m, m < 10 ∧ c = Nat.digitChar m := by
  rw [natStr_data]
  split
  · intro c hc
    simp at hc
    exact ⟨0, by decide, by rw [hc]; decide⟩
  · exact mem_natDigs n

theorem colon_not_mem_natStr (n : Nat) : ':' ∉ (natStr n).data := by
  intro h
  obtain ⟨m, hm, he⟩ := mem_natStr n ':' h
  exact digitChar_ne_colon m hm he.symm

theorem dash_not_mem_natStr (n : Nat) : '-' ∉ (natStr n).data := by
  intro h
  obtain ⟨m, hm, he⟩ := mem_natStr n '-' h
  exact digitChar_ne_dash m hm he.symm

theorem string_data_inj {s t : String} (h : s.data = t.data) : s = t := by
  cases s
  cases t
  exact congrArg String.mk h

theorem natStr_inj {m n : Nat} (h : natStr m = natStr n) : m = n := by
  have hd : (natStr m).data = (natStr n).data := by rw [h]
  rw [natStr_data, natStr_data] at hd
  by_cases hm : m = 0 <;> by_cases hn : n = 0 <;> simp [hm, hn] at hd ⊢
  · -- `['0'] = natDigs n` with `n ≠ 0` is impossible
    exfalso
    rw [natDigs_of_ne_zero hn] at hd
    have hd' : natDigs (n / 10) ++ [Nat.digitChar (n % 10)] = [] ++ ['0'] := by
      simpa using hd.symm
    obtain ⟨h1, h2⟩ := List.append_inj' hd' (by simp)
    have : n / 10 = 0 := (natDigs_nil_iff _).1 h1
    have : n % 10 = 0 :=
      digitChar_injOn _ (Nat.mod_lt _ (by decide)) 0 (by decide) (by simpa using h2)
    omega
  · exfalso
    rw [natDigs_of_ne_zero hm] at hd
    have hd' : natDigs (m / 10) ++ [Nat.digitChar (m % 10)] = [] ++ ['0'] := by
      simpa using hd
    obtain ⟨h1, h2⟩ := List.append_inj' hd' (by simp)
    have : m / 10 = 0 := (natDigs_nil_iff _).1 h1
    have : m % 10 = 0 :=
      digitChar_injOn _ (Nat.mod_lt _ (by decide)) 0 (by decide) (by simpa using h2)
    omega
  · exact natDigs_inj m n hd

theorem colon_not_mem_intStr (i : Int) : ':' ∉ (intStr i).data := by
  cases i with
  | ofNat m => exact colon_not_mem_natStr m
  | negSucc m =>
    intro h
    simp only [intStr, String.data_append] at h
    rcases List.mem_append.1 h with h | h
    · simp at h
    · exact colon_not_mem_natStr (m + 1) h

theorem intStr_inj {i j : Int} (h : intStr i = intStr j) : i = j := by
  cases i with
  | ofNat m =>
    cases j with
    | ofNat n => simpa using natStr_inj h
    | negSucc n =>
      exfalso
      have hd : (natStr m).data = '-' :: (natStr (n + 1)).data := by
        have := congrArg String.data h
        simpa [intStr] using this
      exact dash_not_mem_natStr m (hd ▸ List.mem_cons_self _ _)
  | negSucc m =>
    cases j with
    | ofNat n =>
      exfalso
      have hd : (natStr n).data = '-' :: (natStr (m + 1)).data := by
        have := congrArg String.data h.symm
        simpa [intStr] using this
      exact dash_not_mem_natStr n (hd ▸ List.mem_cons_self _ _)
    | negSucc n =>
      have hd : (natStr (m + 1)).data = (natStr (n + 1)).data := by
        have := congrArg String.data h
        simpa [intStr] using this
      have h1 := natStr_inj (string_data_inj hd)
      have h2 : m = n := by omega
      rw [h2]

/-- Splitting a character list at the first colon is unambiguous. -/
theorem splitFirstColon :
    ∀ u v a b : List Char, ':' ∉ u → ':' ∉ v →
      u ++ ':' :: a = v ++ ':' :: b → u = v ∧ a = b := by
  intro u
  induction u with
  | nil =>
    intro v a b _ hv h
    cases v with
    | nil => simpa using h
    | cons c v' =>
      exfalso
      simp only [List.nil_append, List.cons_append, List.cons.injEq] at h
      exact hv (h.1 ▸ List.mem_cons_self _ _)
  | cons c u' ih =>
    intro v a b hu hv h
    cases v with
    | nil =>
      exfalso
      simp only [List.nil_append, List.cons_append, List.cons.injEq] at h
      exact hu (h.1 ▸ List.mem_cons_self _ _)
    | cons d v' =>
      simp only [List.cons_append, List.cons.injEq] at h
      obtain ⟨rfl, h2⟩ := h
      have hu' : ':' ∉ u' := fun hm => hu (List.mem_cons_of_mem _ hm)
      have hv' : ':' ∉ v' := fun hm => hv (List.mem_cons_of_mem _ hm)
      obtain ⟨rfl, rfl⟩ := ih v' a b hu' hv' h2
      exact ⟨rfl, rfl⟩

/-- Splitting a character list at the last colon is unambiguous. -/
theorem splitLastColon (p q x y : List Char) (hx : ':' ∉ x) (hy : ':' ∉ y)
    (h : p ++ ':' :: x = q ++ ':' :: y) : p = q ∧ x = y := by
  have h' : x.reverse ++ ':' :: p.reverse = y.reverse ++ ':' :: q.reverse := by
    have hr := congrArg List.reverse h
    simp only [List.reverse_append, List.reverse_cons, List.append_assoc,
      List.singleton_append] at hr
    exact hr
  obtain ⟨h1, h2⟩ := splitFirstColon _ _ _ _ (by simpa using hx) (by simpa using hy) h'
  constructor
  · simpa using congrArg List.reverse h2
  · simpa using congrArg List.reverse h1

/-! ### Rate limiter (Bansos)

Embedding of `RateLimiter` / `AllowN` / `Reset` / `buildKey`.
Times and `time.Duration` values are `Int` nanoseconds (Go's
representation).  `time.Time.Unix()` is floor division by `10^9`
(Go stores `sec`/`nsec` with `0 ≤ nsec < 10^9`), and the Go expression
`int64(Window.Seconds())` — float division truncated toward zero — is
modelled as truncating integer division `Int.tdiv` by `10^9`.
The HTTP-facing `KeyFunc` field is request extraction outside the
decision logic and is not part of the embedding. -/

/-- Configuration of the limiter (`RateLimitConfig`); `keyPref` models
the Go field `KeyPrefix`. -/
structure RateLimitConfig where
  keyPref : String
  rate : Int
  window : Int
  burstSize : Int
deriving DecidableEq

/-- Result of one rate-limit check (`RateLimitResult`). -/
structure RateLimitResult where
  allowed : Bool
  remaining : Int
  resetAt : Int
  retryAfter : Int
deriving DecidableEq, Inhabited

/-- `NewRateLimiter` default normalization: empty key prefix becomes
`"ratelimit"`, zero `BurstSize` becomes `Rate`. -/
def newRateLimiterConfig (cfg : RateLimitConfig) : RateLimitConfig :=
  let c1 := if cfg.keyPref = "" then { cfg with keyPref := "ratelimit" } else cfg
  if c1.burstSize = 0 then { c1 with burstSize := c1.rate } else c1

/-- A Go `time.Duration` (nanoseconds) truncated to whole seconds:
model of `int64(d.Seconds())`. -/
def durationSeconds (d : Int) : Int := d.tdiv 1000000000

/-- Unix seconds of a nanosecond timestamp: model of `time.Time.Unix()`. -/
def unixSeconds (t : Int) : Int := t.fdiv 1000000000

/-- `RateLimiter.buildKey`: the counter key
`fmt.Sprintf("%s:%s:%d", prefix, key, t.Unix()/int64(Window.Seconds()))`.
Go integer division truncates toward zero (`Int.tdiv`); when the divisor
`int64(Window.Seconds())` is zero the Go code divides by zero (a run-time
panic), modelled as `none`. -/
def buildKey (cfg : RateLimitConfig) (key : String) (t : Int) : Option String :=
  let ws := durationSeconds cfg.window
  if ws = 0 then none
  else some (cfg.keyPref ++ ":" ++ key ++ ":" ++ intStr ((unixSeconds t).tdiv ws))

/-- The backing store as the limiter sees it: each key holds an integer
counter and an optional absolute expiry time (nanoseconds). -/
def RLStore : Type := String → Option (Int × Option Int)

/-- Store `INCRBY`: creates the key with value `n` and no expiry, or adds
`n` preserving the expiry; returns the post-increment value. -/
def rlIncrBy (st : RLStore) (k : String) (n : Int) : RLStore × Int :=
  match st k with
  | none => (fun q => if q = k then some (n, none) else st q, n)
  | some (v, e) => (fun q => if q = k then some (v + n, e) else st q, v + n)

/-- Store `EXPIRE`: sets the absolute expiry of an existing key. -/
def rlExpire (st : RLStore) (k : String) (expiryAt : Int) : RLStore :=
  match st k with
  | none => st
  | some (v, _) => fun q => if q = k then some (v, some expiryAt) else st q

/-- Store `TTL` at absolute time `now`: the remaining duration, or the
go-redis sentinels `-1s` (key without expiry) / `-2s` (missing key) —
only the sign is ever consulted by the limiter. -/
def rlTTL (st : RLStore) (k : String) (now : Int) : Int :=
  match st k with
  | none => -2000000000
  | some (_, none) => -1000000000
  | some (_, some e) => e - now

/-- Lines 118–146 of `AllowN`: from the pipeline outputs (post-increment
`count` and reported `ttl`) build the `RateLimitResult`. -/
def allowNCompute (cfg : RateLimitConfig) (now count ttl : Int) : RateLimitResult :=
  let remaining := cfg.rate - count
  let remaining := if remaining < 0 then 0 else remaining
  let resetAt := if ttl < 0 then now + cfg.window else now + ttl
  let allowed := decide (count ≤ cfg.rate)
  let retryAfter := if allowed then 0 else if ttl < 0 then cfg.window else ttl
  { allowed := allowed, remaining := remaining, resetAt := resetAt, retryAfter := retryAfter }

/-- `RateLimiter.AllowN` against the ideal store collaborator: one
pipelined round trip `INCRBY n; EXPIRE window; TTL`, then the result
computation.  `none` models the divide-by-zero panic in `buildKey`. -/
def AllowN (cfg : RateLimitConfig) (st : RLStore) (now : Int) (key : String) (n : Int) :
    Option (RLStore × RateLimitResult) :=
  match buildKey cfg key now with
  | none => none
  | some windowKey =>
    let inc := rlIncrBy st windowKey n
    let st2 := rlExpire inc.1 windowKey (now + cfg.window)
    let ttl := rlTTL st2 windowKey now
    some (st2, allowNCompute cfg now inc.2 ttl)

/-- `RateLimiter.Allow` is `AllowN` with `n = 1`. -/
def Allow (cfg : RateLimitConfig) (st : RLStore) (now : Int) (key : String) :
    Option (RLStore × RateLimitResult) :=
  AllowN cfg st now key 1

/-- `RateLimiter.Reset`: deletes the current window's counter key. -/
def Reset (cfg : RateLimitConfig) (st : RLStore) (now : Int) (key : String) :
    Option RLStore :=
  match buildKey cfg key now with
  | none => none
  | some windowKey => some (fun q => if q = windowKey then none else st q)

/-- A sequence of checks `(identity, n, time)` threaded through the store;
`none` as soon as any check hits the divide-by-zero panic. -/
def runChecks (cfg : RateLimitConfig) :
    RLStore → List (String × Int × Int) → Option (RLStore × List RateLimitResult)
  | st, [] => some (st, [])
  | st, (key, n, t) :: rest =>
    match AllowN cfg st t key n with
    | none => none
    | some (st1, r) =>
      match runChecks cfg st1 rest with
      | none => none
      | some (st2, rs) => some (st2, r :: rs)

/-- The counter value currently stored under `k` (0 when absent). -/
def stCount (st : RLStore) (k : String) : Int :=
  match st k with
  | none => 0
  | some (v, _) => v

/-- The results of `count` consecutive single-identity checks starting
from a stored counter value `c0`: the `j`-th check sees post-increment
count `c0 + j + 1` and a freshly refreshed ttl of one full window. -/
def expectedResults (cfg : RateLimitConfig) : Int → List Int → List RateLimitResult
  | _, [] => []
  | c0, t :: rest =>
    allowNCompute cfg t (c0 + 1) cfg.window :: expectedResults cfg (c0 + 1) rest

/-! ### Rate limiter: basic facts and claims C1, C7, C9, C10 -/

theorem allowNCompute_allowed (cfg : RateLimitConfig) (now c t : Int) :
    (allowNCompute cfg now c t).allowed = decide (c ≤ cfg.rate) := rfl

theorem allowNCompute_remaining (cfg : RateLimitConfig) (now c t : Int) :
    (allowNCompute cfg now c t).remaining =
      if cfg.rate - c < 0 then 0 else cfg.rate - c := rfl

theorem allowNCompute_resetAt (cfg : RateLimitConfig) (now c t : Int) :
    (allowNCompute cfg now c t).resetAt =
      if t < 0 then now + cfg.window else now + t := rfl

theorem allowNCompute_retryAfter (cfg : RateLimitConfig) (now c t : Int) :
    (allowNCompute cfg now c t).retryAfter =
      if decide (c ≤ cfg.rate) = true then 0 else if t < 0 then cfg.window else t := rfl

/-- C1: for every identity key and every request weight, when the
pipelined store round trip succeeds and the post-increment counter value
is `c`, `AllowN` returns a `RateLimitResult` with
`allowed = (c ≤ rate)` and `remaining = max 0 (rate − c)`; in
particular `remaining ≥ 0` in the returned result. -/
theorem allowN_allowed_remaining (cfg : RateLimitConfig) (st : RLStore) (now : Int)
    (key wk : String) (n : Int) (hwk : buildKey cfg key now = some wk) :
    ∃ st' r, AllowN cfg st now key n = some (st', r) ∧
      (r.allowed = true ↔ (rlIncrBy st wk n).2 ≤ cfg.rate) ∧
      r.remaining = max 0 (cfg.rate - (rlIncrBy st wk n).2) ∧
      0 ≤ r.remaining := by
  have hA : AllowN cfg st now key n =
      some (rlExpire (rlIncrBy st wk n).1 wk (now + cfg.window),
        allowNCompute cfg now (rlIncrBy st wk n).2
          (rlTTL (rlExpire (rlIncrBy st wk n).1 wk (now + cfg.window)) wk now)) := by
    simp only [AllowN, hwk]
  refine ⟨_, _, hA, ?_, ?_, ?_⟩
  · simp [allowNCompute_allowed]
  · rw [allowNCompute_remaining]
    split <;> omega
  · rw [allowNCompute_remaining]
    split <;> omega

theorem allowN_allowed_remaining_witness :
    ∃ st' r,
      AllowN ⟨"p", 5, 1000000000, 5⟩ (fun _ => none) 0 "u" 1 = some (st', r) ∧
      (r.allowed = true ↔ (rlIncrBy (fun _ => none) "p:u:0" 1).2 ≤ (5 : Int)) ∧
      r.remaining = max 0 (5 - (rlIncrBy (fun _ => none) "p:u:0" 1).2) ∧
      0 ≤ r.remaining :=
  allowN_allowed_remaining ⟨"p", 5, 1000000000, 5⟩ (fun _ => none) 0 "u" "p:u:0" 1 rfl

/-- C7: for every check result computation: a positive reported ttl `t`
gives `resetAt = now + t` and, when denied, `retryAfter = t`; a negative
reported ttl ("no expiry") is normalized in place: `resetAt` falls back
to `now + window` and, when denied, `retryAfter` falls back to the full
window. -/
theorem allowNCompute_ttl_fallback (cfg : RateLimitConfig) (now c t : Int) :
    (0 < t → (allowNCompute cfg now c t).resetAt = now + t ∧
      ((allowNCompute cfg now c t).allowed = false →
        (allowNCompute cfg now c t).retryAfter = t)) ∧
    (t < 0 → (allowNCompute cfg now c t).resetAt = now + cfg.window ∧
      ((allowNCompute cfg now c t).allowed = false →
        (allowNCompute cfg now c t).retryAfter = cfg.window)) := by
  constructor
  · intro ht
    have hnt : ¬ t < 0 := by omega
    refine ⟨by rw [allowNCompute_resetAt]; simp [hnt], fun hden => ?_⟩
    rw [allowNCompute_allowed] at hden
    rw [allowNCompute_retryAfter, hden]
    simp [hnt]
  · intro ht
    refine ⟨by rw [allowNCompute_resetAt]; simp [ht], fun hden => ?_⟩
    rw [allowNCompute_allowed] at hden
    rw [allowNCompute_retryAfter, hden]
    simp [ht]

theorem allowNCompute_ttl_fallback_witness :
    ((0 : Int) < 7 →
      (allowNCompute ⟨"p", 1, 60, 1⟩ 100 2 7).resetAt = 100 + 7 ∧
      ((allowNCompute ⟨"p", 1, 60, 1⟩ 100 2 7).allowed = false →
        (allowNCompute ⟨"p", 1, 60, 1⟩ 100 2 7).retryAfter = 7)) ∧
    ((7 : Int) < 0 →
      (allowNCompute ⟨"p", 1, 60, 1⟩ 100 2 7).resetAt = 100 + 60 ∧
      ((allowNCompute ⟨"p", 1, 60, 1⟩ 100 2 7).allowed = false →
        (allowNCompute ⟨"p", 1, 60, 1⟩ 100 2 7).retryAfter = 60)) :=
  allowNCompute_ttl_fallback ⟨"p", 1, 60, 1⟩ 100 2 7

theorem AllowN_burst_irrelevant (cfg : RateLimitConfig) (b : Int)
    (st : RLStore) (now : Int) (key : String) (n : Int) :
    AllowN { cfg with burstSize := b } st now key n = AllowN cfg st now key n := by
  cases cfg
  rfl

theorem runChecks_burst (cfg : RateLimitConfig) (b : Int) :
    ∀ (checks : List (String × Int × Int)) (st : RLStore),
      runChecks { cfg with burstSize := b } st checks = runChecks cfg st checks := by
  intro checks
  induction checks with
  | nil => intro st; rfl
  | cons c rest ih =>
    intro st
    obtain ⟨key, n, t⟩ := c
    simp only [runChecks]
    rw [AllowN_burst_irrelevant]
    simp only [ih]

theorem runChecks_decision_fields (cfg1 cfg2 : RateLimitConfig)
    (hp : cfg1.keyPref = cfg2.keyPref) (hr : cfg1.rate = cfg2.rate)
    (hw : cfg1.window = cfg2.window) :
    ∀ (checks : List (String × Int × Int)) (st : RLStore),
      runChecks cfg1 st checks = runChecks cfg2 st checks := by
  obtain ⟨p1, r1, w1, b1⟩ := cfg1
  obtain ⟨p2, r2, w2, b2⟩ := cfg2
  simp only at hp hr hw
  subst hp
  subst hr
  subst hw
  intro checks st
  exact runChecks_burst ⟨p1, r1, w1, b2⟩ b1 checks st

theorem newRateLimiterConfig_keyPref (c : RateLimitConfig) :
    (newRateLimiterConfig c).keyPref =
      if c.keyPref = "" then "ratelimit" else c.keyPref := by
  unfold newRateLimiterConfig
  by_cases h1 : c.keyPref = "" <;> simp [h1] <;> split <;> rfl

theorem newRateLimiterConfig_rate (c : RateLimitConfig) :
    (newRateLimiterConfig c).rate = c.rate := by
  unfold newRateLimiterConfig
  by_cases h1 : c.keyPref = "" <;> simp [h1] <;> split <;> rfl

theorem newRateLimiterConfig_window (c : RateLimitConfig) :
    (newRateLimiterConfig c).window = c.window := by
  unfold newRateLimiterConfig
  by_cases h1 : c.keyPref = "" <;> simp [h1] <;> split <;> rfl

/-- C9: `BurstSize` never influences the limiter's decision: two
configurations that differ only in `BurstSize` (whether used directly or
after `NewRateLimiter` defaulting) produce identical results on every
sequence of identities, request counts and times against the same
store. -/
theorem burstSize_noninterference (cfg1 cfg2 : RateLimitConfig)
    (hp : cfg1.keyPref = cfg2.keyPref) (hr : cfg1.rate = cfg2.rate)
    (hw : cfg1.window = cfg2.window) :
    (∀ (st : RLStore) (checks : List (String × Int × Int)),
      runChecks cfg1 st checks = runChecks cfg2 st checks) ∧
    (∀ (st : RLStore) (checks : List (String × Int × Int)),
      runChecks (newRateLimiterConfig cfg1) st checks =
        runChecks (newRateLimiterConfig cfg2) st checks) := by
  constructor
  · intro st checks
    exact runChecks_decision_fields cfg1 cfg2 hp hr hw checks st
  · intro st checks
    refine runChecks_decision_fields _ _ ?_ ?_ ?_ checks st
    · rw [newRateLimiterConfig_keyPref, newRateLimiterConfig_keyPref, hp]
    · rw [newRateLimiterConfig_rate, newRateLimiterConfig_rate, hr]
    · rw [newRateLimiterConfig_window, newRateLimiterConfig_window, hw]

theorem burstSize_noninterference_witness :
    (∀ (st : RLStore) (checks : List (String × Int × Int)),
      runChecks ⟨"a", 3, 1000000000, 7⟩ st checks =
        runChecks ⟨"a", 3, 1000000000, 9⟩ st checks) ∧
    (∀ (st : RLStore) (checks : List (String × Int × Int)),
      runChecks (newRateLimiterConfig ⟨"a", 3, 1000000000, 7⟩) st checks =
        runChecks (newRateLimiterConfig ⟨"a", 3, 1000000000, 9⟩) st checks) :=
  burstSize_noninterference ⟨"a", 3, 1000000000, 7⟩ ⟨"a", 3, 1000000000, 9⟩ rfl rfl rfl

/-- C10: for a window strictly between 0 and 1 second the divisor
`int64(Window.Seconds())` is 0, and `Allow`, `AllowN` and `Reset` hit an
integer division by zero (modelled as `none`); for a window of at least
one second all three operations are total. -/
theorem subsecond_window_division_by_zero (cfg : RateLimitConfig)
    (h1 : 0 < cfg.window) (h2 : cfg.window < 1000000000) :
    durationSeconds cfg.window = 0 ∧
    (∀ (st : RLStore) (now : Int) (key : String) (n : Int),
      AllowN cfg st now key n = none) ∧
    (∀ (st : RLStore) (now : Int) (key : String), Allow cfg st now key = none) ∧
    (∀ (st : RLStore) (now : Int) (key : String), Reset cfg st now key = none) ∧
    (∀ cfg' : RateLimitConfig, 1000000000 ≤ cfg'.window →
      ∀ (st : RLStore) (now : Int) (key : String) (n : Int),
        (AllowN cfg' st now key n).isSome ∧ (Allow cfg' st now key).isSome ∧
          (Reset cfg' st now key).isSome) := by
  have hz : durationSeconds cfg.window = 0 :=
    Int.tdiv_eq_zero_of_lt h1.le h2
  refine ⟨hz, ?_, ?_, ?_, ?_⟩
  · intro st now key n
    simp [AllowN, buildKey, hz]
  · intro st now key
    simp [Allow, AllowN, buildKey, hz]
  · intro st now key
    simp [Reset, buildKey, hz]
  · intro cfg' hge st now key n
    have hnz : durationSeconds cfg'.window ≠ 0 := by
      unfold durationSeconds
      rw [Int.tdiv_eq_ediv (by omega) (by omega)]
      omega
    refine ⟨?_, ?_, ?_⟩
    · simp [AllowN, buildKey, hnz]
    · simp [Allow, AllowN, buildKey, hnz]
    · simp [Reset, buildKey, hnz]

theorem subsecond_window_division_by_zero_witness :
    durationSeconds (500000000 : Int) = 0 ∧
    (∀ (st : RLStore) (now : Int) (key : String) (n : Int),
      AllowN ⟨"ratelimit", 10, 500000000, 10⟩ st now key n = none) ∧
    (∀ (st : RLStore) (now : Int) (key : String),
      Allow ⟨"ratelimit", 10, 500000000, 10⟩ st now key = none) ∧
    (∀ (st : RLStore) (now : Int) (key : String),
      Reset ⟨"ratelimit", 10, 500000000, 10⟩ st now key = none) ∧
    (∀ cfg' : RateLimitConfig, 1000000000 ≤ cfg'.window →
      ∀ (st : RLStore) (now : Int) (key : String) (n : Int),
        (AllowN cfg' st now key n).isSome ∧ (Allow cfg' st now key).isSome ∧
          (Reset cfg' st now key).isSome) :=
  subsecond_window_division_by_zero ⟨"ratelimit", 10, 500000000, 10⟩
    (by decide) (by decide)

/-! ### Rate limiter: claims C8 and C2 -/

theorem keyStr_inj (p i1 i2 : String) (w1 w2 : Int)
    (h : p ++ ":" ++ i1 ++ ":" ++ intStr w1 = p ++ ":" ++ i2 ++ ":" ++ intStr w2) :
    i1 = i2 ∧ w1 = w2 := by
  have hcolon : (":" : String).data = [':'] := rfl
  have hd := congrArg String.data h
  simp only [String.data_append, hcolon] at hd
  have hd' : (p.data ++ ':' :: i1.data) ++ ':' :: (intStr w1).data
      = (p.data ++ ':' :: i2.data) ++ ':' :: (intStr w2).data := by
    simpa [List.append_assoc] using hd
  obtain ⟨h1, h2⟩ := splitLastColon _ _ _ _
    (colon_not_mem_intStr w1) (colon_not_mem_intStr w2) hd'
  have hi : i1.data = i2.data := by
    have h1' : ':' :: i1.data = ':' :: i2.data := List.append_cancel_left h1
    simpa using h1'
  exact ⟨string_data_inj hi, intStr_inj (string_data_inj h2)⟩

theorem unixSeconds_nonneg {t : Int} (h : 0 ≤ t) : 0 ≤ unixSeconds t := by
  unfold unixSeconds
  rw [Int.fdiv_eq_tdiv h (by omega)]
  exact Int.tdiv_nonneg h (by omega)

/-- C8: the counter key used by a check at time `t` for identity `id` is
`prefix:id:w` with window index `w = ⌊unixSeconds / windowSeconds⌋`;
checks for different identities never share a counter key, and a check
in a fresh window index uses a brand-new key. -/
theorem buildKey_window_scoped (cfg : RateLimitConfig) (id1 id2 : String)
    (t t1 t2 : Int) (hws : 0 < durationSeconds cfg.window) (ht : 0 ≤ t)
    (ht1 : 0 ≤ t1) (ht2 : 0 ≤ t2) :
    buildKey cfg id1 t = some (cfg.keyPref ++ ":" ++ id1 ++ ":" ++
      intStr ((unixSeconds t).fdiv (durationSeconds cfg.window))) ∧
    (id1 ≠ id2 → buildKey cfg id1 t1 ≠ buildKey cfg id2 t2) ∧
    ((unixSeconds t1).fdiv (durationSeconds cfg.window) ≠
        (unixSeconds t2).fdiv (durationSeconds cfg.window) →
      buildKey cfg id1 t1 ≠ buildKey cfg id1 t2) := by
  have hwne : durationSeconds cfg.window ≠ 0 := by omega
  refine ⟨?_, ?_, ?_⟩
  · simp only [buildKey, if_neg hwne]
    rw [Int.fdiv_eq_tdiv (unixSeconds_nonneg ht) hws.le]
  · intro hne heq
    simp only [buildKey, if_neg hwne, Option.some.injEq] at heq
    exact hne (keyStr_inj _ _ _ _ _ heq).1
  · intro hne heq
    simp only [buildKey, if_neg hwne, Option.some.injEq] at heq
    rw [Int.fdiv_eq_tdiv (unixSeconds_nonneg ht1) hws.le,
      Int.fdiv_eq_tdiv (unixSeconds_nonneg ht2) hws.le] at hne
    exact hne (keyStr_inj _ _ _ _ _ heq).2

theorem buildKey_window_scoped_witness :
    buildKey ⟨"p", 1, 1000000000, 1⟩ "a" 0 = some ("p" ++ ":" ++ "a" ++ ":" ++
      intStr ((unixSeconds 0).fdiv (durationSeconds 1000000000))) ∧
    ("a" ≠ "b" → buildKey ⟨"p", 1, 1000000000, 1⟩ "a" 0 ≠
      buildKey ⟨"p", 1, 1000000000, 1⟩ "b" 0) ∧
    ((unixSeconds (0 : Int)).fdiv (durationSeconds 1000000000) ≠
        (unixSeconds (0 : Int)).fdiv (durationSeconds 1000000000) →
      buildKey ⟨"p", 1, 1000000000, 1⟩ "a" 0 ≠ buildKey ⟨"p", 1, 1000000000, 1⟩ "a" 0) :=
  buildKey_window_scoped ⟨"p", 1, 1000000000, 1⟩ "a" "b" 0 0 0
    (by decide) (by decide) (by decide) (by decide)

theorem AllowN_step_eq (cfg : RateLimitConfig) (st : RLStore) (t : Int)
    (key wk : String) (n : Int) (hwk : buildKey cfg key t = some wk) :
    AllowN cfg st t key n =
      some (fun q => if q = wk then some (stCount st wk + n, some (t + cfg.window)) else st q,
        allowNCompute cfg t (stCount st wk + n) cfg.window) := by
  have harith : t + cfg.window - t = cfg.window := by ring
  cases h : st wk with
  | none =>
    simp only [AllowN, hwk, rlIncrBy, rlExpire, rlTTL, h, if_pos rfl,
      Option.some.injEq]
    refine Prod.ext ?_ ?_
    · funext q
      by_cases hq : q = wk <;> simp [hq, stCount, h]
    · simp only [harith, stCount, h]
      norm_num
  | some ve =>
    obtain ⟨v, e⟩ := ve
    simp only [AllowN, hwk, rlIncrBy, rlExpire, rlTTL, h, if_pos rfl,
      Option.some.injEq]
    refine Prod.ext ?_ ?_
    · funext q
      by_cases hq : q = wk <;> simp [hq, stCount, h]
    · simp [stCount, h, harith]

theorem runChecks_single_key (cfg : RateLimitConfig) (key wk : String) :
    ∀ (ts : List Int) (st : RLStore),
      (∀ t ∈ ts, buildKey cfg key t = some wk) →
      ∃ st', runChecks cfg st (ts.map fun t => (key, 1, t)) =
          some (st', expectedResults cfg (stCount st wk) ts) ∧
        stCount st' wk = stCount st wk + ts.length := by
  intro ts
  induction ts with
  | nil =>
    intro st _
    exact ⟨st, rfl, by simp⟩
  | cons t rest ih =>
    intro st hall
    have hwk := hall t (List.mem_cons_self t rest)
    have step := AllowN_step_eq cfg st t key wk 1 hwk
    have hcnt : stCount
        (fun q => if q = wk then some (stCount st wk + 1, some (t + cfg.window)) else st q)
        wk = stCount st wk + 1 := by
      simp [stCount]
    obtain ⟨st', hrun, hcount⟩ :=
      ih (fun q => if q = wk then some (stCount st wk + 1, some (t + cfg.window)) else st q)
        (fun u hu => hall u (List.mem_cons_of_mem t hu))
    refine ⟨st', ?_, ?_⟩
    · simp only [List.map_cons, runChecks, step, hrun, hcnt, expectedResults]
    · rw [hcount, hcnt, List.length_cons]
      push_cast
      ring

theorem expectedResults_getD (cfg : RateLimitConfig) :
    ∀ (ts : List Int) (c0 : Int) (j : Nat), j < ts.length →
      (expectedResults cfg c0 ts).getD j default =
        allowNCompute cfg (ts.getD j 0) (c0 + j + 1) cfg.window := by
  intro ts
  induction ts with
  | nil =>
    intro c0 j h
    simp at h
  | cons t rest ih =>
    intro c0 j h
    cases j with
    | zero => simp [expectedResults]
    | succ j' =>
      have hj : j' < rest.length := by simpa using h
      have := ih (c0 + 1) j' hj
      simp only [expectedResults, List.getD_cons_succ]
      rw [this]
      have hc : c0 + 1 + (j' : Int) + 1 = c0 + ((j' + 1 : Nat) : Int) + 1 := by
        push_cast
        ring
      rw [hc]

/-- C2: with `rate = R`, issuing exactly `R` single-unit checks for one
identity within one window index (fresh counter) yields `allowed = true`
for all of them with `remaining` strictly decreasing from `R − 1` down
to `0` (the `j`-th check has `remaining = R − 1 − j`); the `(R+1)`-th
check in the same window yields `allowed = false` with
`retryAfter ≤ window`. -/
theorem fixed_window_exhaustion (cfg : RateLimitConfig) (key wk : String)
    (st : RLStore) (ts : List Int) (R : Nat)
    (_hR : 1 ≤ R) (hrate : cfg.rate = (R : Int))
    (hall : ∀ t ∈ ts, buildKey cfg key t = some wk)
    (hlen : ts.length = R + 1)
    (hfresh : st wk = none) :
    ∃ st' rs, runChecks cfg st (ts.map fun t => (key, 1, t)) = some (st', rs) ∧
      (∀ j, j < R → (rs.getD j default).allowed = true ∧
        (rs.getD j default).remaining = (R : Int) - 1 - j) ∧
      (rs.getD R default).allowed = false ∧
      (rs.getD R default).retryAfter ≤ cfg.window := by
  have hc0 : stCount st wk = 0 := by simp [stCount, hfresh]
  obtain ⟨st', hrun, _⟩ := runChecks_single_key cfg key wk ts st hall
  rw [hc0] at hrun
  refine ⟨st', _, hrun, ?_, ?_, ?_⟩
  · intro j hj
    rw [expectedResults_getD cfg ts 0 j (by omega)]
    constructor
    · rw [allowNCompute_allowed, hrate]
      simp only [decide_eq_true_eq]
      omega
    · rw [allowNCompute_remaining, hrate]
      split <;> omega
  · rw [expectedResults_getD cfg ts 0 R (by omega), allowNCompute_allowed, hrate]
    simp only [decide_eq_false_iff_not]
    omega
  · rw [expectedResults_getD cfg ts 0 R (by omega), allowNCompute_retryAfter]
    have hdec : decide (0 + (R : Int) + 1 ≤ cfg.rate) = false := by
      simp only [decide_eq_false_iff_not, hrate]
      omega
    rw [hdec]
    have hne : ¬ (false = true) := by simp
    rw [if_neg hne]
    split <;> omega

theorem fixed_window_exhaustion_witness :
    ∃ st' rs,
      runChecks ⟨"p", 2, 1000000000, 2⟩ (fun _ => none)
        (([0, 0, 0] : List Int).map fun t => ("u", 1, t)) = some (st', rs) ∧
      (∀ j, j < 2 → (rs.getD j default).allowed = true ∧
        (rs.getD j default).remaining = (2 : Int) - 1 - j) ∧
      (rs.getD 2 default).allowed = false ∧
      (rs.getD 2 default).retryAfter ≤ (1000000000 : Int) :=
  fixed_window_exhaustion ⟨"p", 2, 1000000000, 2⟩ "u" "p:u:0" (fun _ => none)
    [0, 0, 0] 2 (by decide) (by decide)
    (by intro t ht; simp at ht; subst ht; rfl) (by decide) rfl

/-! ### Key scanner (Blusukan)

Embedding of `Scanner` / `Next` / `Key` / `Err` / `All`.  The store's
paged enumeration for a fixed pattern/count-hint/type-filter is a finite
list of pages (each page either a failing scan call or a list of keys);
the cursor is the page index, with the cursor returned alongside the
final page wrapping to the start token `0`, exactly the collaborator
contract the Go code relies on.  `Next` is instrumented with the number
of scan calls it makes, and takes the cancellation state observed by its
context check.  `BatchDelay` only sleeps and has no effect on results. -/

/-- Paged key enumeration offered by the store for one scan. -/
structure ScanStore where
  pages : List (Except String (List String))

/-- One paged scan call at cursor `c`: the page at index `c`, with the
next cursor wrapping to the start token `0` after the last page; a scan
past the end is an empty terminal page. -/
def ScanStore.scan (st : ScanStore) (c : Nat) : Except String (List String × Nat) :=
  match st.pages.get? c with
  | none => .ok ([], 0)
  | some (.error e) => .error e
  | some (.ok keys) => .ok (keys, if c + 1 = st.pages.length then 0 else c + 1)

/-- Scanner state: cursor, in-memory buffer with consumption index,
terminated flag, latched error. -/
structure Scanner where
  cursor : Nat
  buffer : List String
  bufIdx : Nat
  done : Bool
  err : Option String
deriving DecidableEq

/-- The zero-valued scanner `Blusukan` returns. -/
def newScanner : Scanner :=
  { cursor := 0, buffer := [], bufIdx := 0, done := false, err := none }

/-- `Scanner.Next`, fuelled: the fuel only bounds the internal
empty-page recursion (each recursive call advances the cursor by one, so
`pages.length + 1` steps always suffice; see `Scanner.next`).  Returns
(advanced?, new state, number of store scan calls made). -/
def Scanner.nextAux (st : ScanStore) (ctxDone : Bool) :
    Nat → Scanner → Bool × Scanner × Nat
  | 0, s => (false, s, 0)
  | fuel + 1, s =>
    if s.done || s.err.isSome then (false, s, 0)
    else if ctxDone then (false, { s with err := some "context canceled" }, 0)
    else if s.bufIdx < s.buffer.length then (true, { s with bufIdx := s.bufIdx + 1 }, 0)
    else
      match st.scan s.cursor with
      | .error e => (false, { s with buffer := [], bufIdx := 0, err := some e }, 1)
      | .ok (keys, cursor) =>
        let s1 : Scanner :=
          { s with buffer := keys, bufIdx := 0, cursor := cursor, done := decide (cursor = 0) }
        if 0 < keys.length then (true, { s1 with bufIdx := 1 }, 1)
        else if cursor = 0 then (false, s1, 1)
        else
          let r := Scanner.nextAux st ctxDone fuel s1
          (r.1, r.2.1, r.2.2 + 1)

/-- `Scanner.Next`.  An internal recursion step happens only on an empty
non-terminal page, which advances the cursor, so `pages.length + 1` fuel
is never exhausted. -/
def Scanner.next (st : ScanStore) (ctxDone : Bool) (s : Scanner) :
    Bool × Scanner × Nat :=
  Scanner.nextAux st ctxDone (st.pages.length + 1) s

/-- `Scanner.Key`: the current key, `""` out of range. -/
def Scanner.key (s : Scanner) : String :=
  if 0 < s.bufIdx ∧ s.bufIdx ≤ s.buffer.length then s.buffer.getD (s.bufIdx - 1) ""
  else ""

/-- The `All` drain loop, fuelled (the fuel is an upper bound on loop
iterations; `scanFuel` below is ample because every advance either
consumes a buffered key or consumes a page). -/
def Scanner.allAux (st : ScanStore) (ctxDone : Bool) :
    Nat → Scanner → List String → List String × Scanner
  | 0, s, acc => (acc, s)
  | fuel + 1, s, acc =>
    match Scanner.next st ctxDone s with
    | (true, s', _) => Scanner.allAux st ctxDone fuel s' (acc ++ [s'.key])
    | (false, s', _) => (acc, s')

/-- Ample iteration bound for draining a scanner over `st`. -/
def scanFuel (st : ScanStore) (s : Scanner) : Nat :=
  s.buffer.length + st.pages.length +
    (st.pages.map fun p =>
      match p with
      | .ok ks => ks.length
      | .error _ => 0).sum + 2

/-- `Scanner.All`: drain the scanner, returning the collected keys and
the final `Err()`. -/
def Scanner.all (st : ScanStore) (ctxDone : Bool) (s : Scanner) :
    List String × Option String :=
  let r := Scanner.allAux st ctxDone (scanFuel st s) s []
  (r.1, r.2.err)

/-! ### Scanner: claims C6 and C5 -/

/-- C6: once a scanner has latched an error or has terminated, `Next`
returns `false`, leaves the scanner state unchanged (so every subsequent
call returns `false` as well) and issues no store calls.  The code
short-circuits on `done` alone, so the claim's condition — error
latched, or terminated with the buffer drained — is covered a fortiori. -/
theorem scanner_latch_permanent (st : ScanStore) (ctxDone : Bool) (s : Scanner)
    (h : s.err.isSome = true ∨ s.done = true) :
    Scanner.next st ctxDone s = (false, s, 0) := by
  have hcond : (s.done || s.err.isSome) = true := by
    rcases h with h | h <;> simp [h]
  rw [Scanner.next, Scanner.nextAux, if_pos hcond]

theorem scanner_latch_permanent_witness :
    Scanner.next ⟨[Except.ok ["a"]]⟩ false ⟨0, [], 0, false, some "boom"⟩ =
      (false, ⟨0, [], 0, false, some "boom"⟩, 0) ∧
    Scanner.next ⟨[Except.ok ["a"]]⟩ false ⟨0, ["a", "b"], 1, true, none⟩ =
      (false, ⟨0, ["a", "b"], 1, true, none⟩, 0) :=
  ⟨scanner_latch_permanent ⟨[Except.ok ["a"]]⟩ false ⟨0, [], 0, false, some "boom"⟩
      (Or.inl rfl),
    scanner_latch_permanent ⟨[Except.ok ["a"]]⟩ false ⟨0, ["a", "b"], 1, true, none⟩
      (Or.inr rfl)⟩

/-- C5 (evaluation of the code at the failing input): over a store whose
single — hence final — page holds the two keys `k1, k2` (`next cursor`
wrapping to the start token), `All` returns only `["k1"]`: setting
`done` when the cursor wraps makes the following `Next` call return
`false` before the buffer is drained, so every key after the first on
the last page is dropped.  This contradicts `All`'s contract of
collecting all matching keys.  The empty-key-space part of the claim
does hold: the scan ends immediately with an empty result and no
error. -/
theorem scanner_all_drops_final_page_keys :
    (Scanner.all ⟨[Except.ok ["k1", "k2"]]⟩ false newScanner).1 = ["k1"] ∧
    (Scanner.all ⟨[Except.ok ["k1", "k2"]]⟩ false newScanner).1 ≠ ["k1", "k2"] ∧
    Scanner.all ⟨[]⟩ false newScanner = ([], none) := by
  refine ⟨by decide, by decide, by decide⟩

/-! ### Migrator (hilirisasi)

Embedding of `Migrate` / `migrateKey`.  The source store supplies key
enumeration (`scanAllKeys`), per-key reads and TTL lookups, each of
which may fail; the destination records written entries in order and may
fail per key.  Values are byte lists.  `ctxDone i` is the cancellation
state observed by the `i`-th batch-boundary context check.  `onProgress`
invocations are recorded as a trace of `(done, total)` pairs when the
callback is present; wall-clock `Duration` is not modelled. -/

/-- `MigrateOptions` (callbacks: `hasOnProgress` records presence of
`OnProgress`, whose invocations the embedding traces; `onError` is the
caller's per-key error callback). -/
structure MigrateOptions where
  pattern : String
  batchSize : Int
  ttl : Int
  preserveTTL : Bool
  dryRun : Bool
  hasOnProgress : Bool
  onError : Option (String → String → Bool)

/-- `MigrateResult` (wall-clock `Duration` omitted). -/
structure MigrateResult where
  totalKeys : Nat
  migratedKeys : Nat
  failedKeys : Nat
  errors : List (String × String)
deriving DecidableEq

/-- Source store: key enumeration, per-key read, per-key TTL. -/
structure MigSrc where
  scanKeys : String → Except String (List String)
  get : String → Except String (List Nat)
  ttl : String → Except String Int

/-- Destination store: entries written so far (in write order) and a
per-key write-failure behavior. -/
structure MigDst where
  data : List (String × List Nat × Int)
  setFails : String → Bool

/-- Destination `SET` with TTL. -/
def MigDst.set (d : MigDst) (k : String) (v : List Nat) (t : Int) :
    Except String MigDst :=
  if d.setFails k then .error "set error"
  else .ok { d with data := d.data ++ [(k, v, t)] }

/-- The TTL block of `migrateKey`: preserve the source TTL (normalizing
the negative "no expiry"/"not found" sentinels to 0), else use a
positive override, else no expiry (0). -/
def resolveTTL (src : MigSrc) (key : String) (opts : MigrateOptions) :
    Except String Int :=
  if opts.preserveTTL then
    match src.ttl key with
    | .error e => .error ("ttl failed: " ++ e)
    | .ok t => .ok (if t < 0 then 0 else t)
  else .ok (if 0 < opts.ttl then opts.ttl else 0)

/-- `migrateKey`: read the value, resolve the TTL, write to the
destination. -/
def migrateKey (src : MigSrc) (dst : MigDst) (key : String) (opts : MigrateOptions) :
    Except String MigDst :=
  match src.get key with
  | .error e => .error ("get failed: " ++ e)
  | .ok v =>
    match resolveTTL src key opts with
    | .error e => .error e
    | .ok t =>
      match dst.set key v t with
      | .error e => .error ("set failed: " ++ e)
      | .ok d => .ok d

/-- Why `Migrate` returned early with a non-nil error. -/
inductive MigAbort where
  | cancelled
  | abortedAt (key : String) (e : String)
deriving DecidableEq

/-- The inner per-key loop of one batch: on a key failure, record it
(`failedKeys`, `errors`), then consult `onError`; `some (k, e)` in the
third component signals a caller-requested abort at key `k`. -/
def processBatch (src : MigSrc) (opts : MigrateOptions) :
    List String → MigDst → MigrateResult →
      MigrateResult × MigDst × Option (String × String)
  | [], dst, acc => (acc, dst, none)
  | k :: ks, dst, acc =>
    match migrateKey src dst k opts with
    | .error e =>
      let acc' :=
        { acc with failedKeys := acc.failedKeys + 1, errors := acc.errors ++ [(k, e)] }
      match opts.onError with
      | some f =>
        if f k e then processBatch src opts ks dst acc' else (acc', dst, some (k, e))
      | none => processBatch src opts ks dst acc'
    | .ok dst' =>
      processBatch src opts ks dst' { acc with migratedKeys := acc.migratedKeys + 1 }

/-- The batch loop of `Migrate`, fuelled: the fuel only bounds the
number of batches (each non-final batch drops at least one key once the
batch size is positive, so `keys.length + 1` always suffices; see
`Migrate`).  Before each batch a cancellation check runs; after each
fully processed batch the `onProgress` trace is extended with
`(migratedKeys + failedKeys, totalKeys)`. -/
def migrateLoop (src : MigSrc) (opts : MigrateOptions) (ctxDone : Nat → Bool) (B : Nat) :
    Nat → List String → Nat → MigDst → MigrateResult → List (Nat × Nat) →
      MigrateResult × MigDst × List (Nat × Nat) × Option MigAbort
  | _, [], _, dst, acc, trace => (acc, dst, trace, none)
  | 0, _ :: _, _, dst, acc, trace => (acc, dst, trace, none)
  | fuel + 1, k :: ks, checkIdx, dst, acc, trace =>
    if ctxDone checkIdx then (acc, dst, trace, some .cancelled)
    else
      match processBatch src opts ((k :: ks).take B) dst acc with
      | (acc', dst', some ke) => (acc', dst', trace, some (.abortedAt ke.1 ke.2))
      | (acc', dst', none) =>
        let trace' := if opts.hasOnProgress
          then trace ++ [(acc'.migratedKeys + acc'.failedKeys, acc'.totalKeys)]
          else trace
        migrateLoop src opts ctxDone B fuel ((k :: ks).drop B) (checkIdx + 1) dst' acc' trace'

/-- `Migrate`: normalize defaults, enumerate the matching keys (sole
hard-failure point), honor `dryRun`, then run the batch loop.  The
result carries the final `MigrateResult`, the destination state, the
`onProgress` trace, and the early-return error if any. -/
def Migrate (src : MigSrc) (dst : MigDst) (opts : MigrateOptions) (ctxDone : Nat → Bool) :
    Except String (MigrateResult × MigDst × List (Nat × Nat) × Option MigAbort) :=
  let B : Nat := if opts.batchSize ≤ 0 then 100 else opts.batchSize.toNat
  let pat := if opts.pattern = "" then "*" else opts.pattern
  match src.scanKeys pat with
  | .error e => .error ("failed to scan keys: " ++ e)
  | .ok keys =>
    let res0 : MigrateResult := ⟨keys.length, 0, 0, []⟩
    if opts.dryRun then .ok (res0, dst, [], none)
    else .ok (migrateLoop src opts ctxDone B (keys.length + 1) keys 0 dst res0 [])

/-! ### Migrator: batch-level lemmas -/

@[simp] theorem mkResult_total (T M F : Nat) (E : List (String × String)) :
    (MigrateResult.mk T M F E).totalKeys = T := rfl

@[simp] theorem mkResult_migrated (T M F : Nat) (E : List (String × String)) :
    (MigrateResult.mk T M F E).migratedKeys = M := rfl

@[simp] theorem mkResult_failed (T M F : Nat) (E : List (String × String)) :
    (MigrateResult.mk T M F E).failedKeys = F := rfl

@[simp] theorem mkResult_errors (T M F : Nat) (E : List (String × String)) :
    (MigrateResult.mk T M F E).errors = E := rfl

theorem migrateKey_mono (src : MigSrc) (dst : MigDst) (k : String)
    (opts : MigrateOptions) (dst2 : MigDst)
    (h : migrateKey src dst k opts = .ok dst2) :
    ∀ x ∈ dst.data, x ∈ dst2.data := by
  unfold migrateKey at h
  cases hg : src.get k with
  | error e => simp [hg] at h
  | ok v =>
    simp only [hg] at h
    cases ht : resolveTTL src k opts with
    | error e => simp [ht] at h
    | ok t =>
      simp only [ht] at h
      unfold MigDst.set at h
      by_cases hf : dst.setFails k
      · simp [hf] at h
      · simp [hf] at h
        subst h
        intro x hx
        simp [hx]

theorem processBatch_counts (src : MigSrc) (opts : MigrateOptions) :
    ∀ (ks : List String) (dst : MigDst) (acc acc' : MigrateResult) (dst' : MigDst)
      (ab : Option (String × String)),
      processBatch src opts ks dst acc = (acc', dst', ab) →
      acc'.totalKeys = acc.totalKeys ∧
      acc.migratedKeys ≤ acc'.migratedKeys ∧
      acc.failedKeys ≤ acc'.failedKeys ∧
      acc'.migratedKeys + acc'.failedKeys
        ≤ acc.migratedKeys + acc.failedKeys + ks.length ∧
      (ab = none → acc'.migratedKeys + acc'.failedKeys
        = acc.migratedKeys + acc.failedKeys + ks.length) ∧
      (∃ newErrs, acc'.errors = acc.errors ++ newErrs) ∧
      acc'.failedKeys + acc.errors.length = acc.failedKeys + acc'.errors.length := by
  intro ks
  induction ks with
  | nil =>
    intro dst acc acc' dst' ab h
    simp only [processBatch, Prod.mk.injEq] at h
    obtain ⟨rfl, rfl, rfl⟩ := h
    exact ⟨rfl, le_refl _, le_refl _, by simp, fun _ => by simp, ⟨[], by simp⟩, rfl⟩
  | cons k ks ih =>
    intro dst acc acc' dst' ab h
    simp only [processBatch] at h
    cases hmk : migrateKey src dst k opts with
    | error e =>
      simp only [hmk] at h
      cases hoe : opts.onError with
      | none =>
        simp only [hoe] at h
        obtain ⟨i1, i2, i3, i4, i5, ⟨nE, i6⟩, i7⟩ := ih _ _ _ _ _ h
        simp only [mkResult_total, mkResult_migrated, mkResult_failed,
          mkResult_errors] at i1 i2 i3 i4 i5 i6 i7
        refine ⟨i1, i2, by omega, ?_, ?_, ?_, ?_⟩
        · simp only [List.length_cons]; omega
        · intro hab
          have := i5 hab
          simp only [List.length_cons]; omega
        · exact ⟨(k, e) :: nE, by simpa using i6⟩
        · simp only [List.length_append, List.length_cons, List.length_nil] at i7
          omega
      | some f =>
        simp only [hoe] at h
        by_cases hf : f k e = true
        · rw [if_pos hf] at h
          obtain ⟨i1, i2, i3, i4, i5, ⟨nE, i6⟩, i7⟩ := ih _ _ _ _ _ h
          simp only [mkResult_total, mkResult_migrated, mkResult_failed,
            mkResult_errors] at i1 i2 i3 i4 i5 i6 i7
          refine ⟨i1, i2, by omega, ?_, ?_, ?_, ?_⟩
          · simp only [List.length_cons]; omega
          · intro hab
            have := i5 hab
            simp only [List.length_cons]; omega
          · exact ⟨(k, e) :: nE, by simpa using i6⟩
          · simp only [List.length_append, List.length_cons, List.length_nil] at i7
            omega
        · rw [if_neg hf] at h
          simp only [Prod.mk.injEq] at h
          obtain ⟨rfl, rfl, rfl⟩ := h
          refine ⟨by simp, by simp, by simp, ?_, ?_, ⟨[(k, e)], by simp⟩, ?_⟩
          · simp only [mkResult_migrated, mkResult_failed, List.length_cons]
            omega
          · intro hab
            simp at hab
          · simp only [mkResult_failed, mkResult_errors, List.length_append,
              List.length_cons, List.length_nil]
            omega
    | ok dst2 =>
      simp only [hmk] at h
      obtain ⟨i1, i2, i3, i4, i5, ⟨nE, i6⟩, i7⟩ := ih _ _ _ _ _ h
      simp only [mkResult_total, mkResult_migrated, mkResult_failed,
        mkResult_errors] at i1 i2 i3 i4 i5 i6 i7
      refine ⟨i1, by omega, i3, ?_, ?_, ⟨nE, i6⟩, i7⟩
      · simp only [List.length_cons]; omega
      · intro hab
        have := i5 hab
        simp only [List.length_cons]; omega

theorem processBatch_dst_mono (src : MigSrc) (opts : MigrateOptions) :
    ∀ (ks : List String) (dst : MigDst) (acc acc' : MigrateResult) (dst' : MigDst)
      (ab : Option (String × String)),
      processBatch src opts ks dst acc = (acc', dst', ab) →
      ∀ x ∈ dst.data, x ∈ dst'.data := by
  intro ks
  induction ks with
  | nil =>
    intro dst acc acc' dst' ab h
    simp only [processBatch, Prod.mk.injEq] at h
    obtain ⟨rfl, rfl, rfl⟩ := h
    exact fun x hx => hx
  | cons k ks ih =>
    intro dst acc acc' dst' ab h
    simp only [processBatch] at h
    cases hmk : migrateKey src dst k opts with
    | error e =>
      simp only [hmk] at h
      cases hoe : opts.onError with
      | none =>
        simp only [hoe] at h
        exact ih _ _ _ _ _ h
      | some f =>
        simp only [hoe] at h
        by_cases hf : f k e = true
        · rw [if_pos hf] at h
          exact ih _ _ _ _ _ h
        · rw [if_neg hf] at h
          simp only [Prod.mk.injEq] at h
          obtain ⟨rfl, rfl, rfl⟩ := h
          exact fun x hx => hx
    | ok dst2 =>
      simp only [hmk] at h
      intro x hx
      exact ih _ _ _ _ _ h x (migrateKey_mono src dst k opts dst2 hmk x hx)

theorem processBatch_abort (src : MigSrc) (opts : MigrateOptions) :
    ∀ (ks : List String) (dst : MigDst) (acc acc' : MigrateResult) (dst' : MigDst)
      (ab : Option (String × String)),
      processBatch src opts ks dst acc = (acc', dst', ab) →
      (∀ k e, ab = some (k, e) → (k, e) ∈ acc'.errors) ∧
      ((opts.onError = none ∨ ∃ f, opts.onError = some f ∧ ∀ k e, f k e = true) →
        ab = none) := by
  intro ks
  induction ks with
  | nil =>
    intro dst acc acc' dst' ab h
    simp only [processBatch, Prod.mk.injEq] at h
    obtain ⟨rfl, rfl, rfl⟩ := h
    exact ⟨fun k e hk => by simp at hk, fun _ => rfl⟩
  | cons k ks ih =>
    intro dst acc acc' dst' ab h
    simp only [processBatch] at h
    cases hmk : migrateKey src dst k opts with
    | error e =>
      simp only [hmk] at h
      cases hoe : opts.onError with
      | none =>
        simp only [hoe] at h
        obtain ⟨ha, hb⟩ := ih _ _ _ _ _ h
        exact ⟨ha, fun _ => hb (Or.inl hoe)⟩
      | some f =>
        simp only [hoe] at h
        by_cases hf : f k e = true
        · rw [if_pos hf] at h
          obtain ⟨ha, hb⟩ := ih _ _ _ _ _ h
          refine ⟨ha, fun htriv => hb ?_⟩
          rcases htriv with hnone | ⟨f1, hf1, hall⟩
          · simp at hnone
          · exact Or.inr ⟨f1, hoe.trans hf1, hall⟩
        · rw [if_neg hf] at h
          simp only [Prod.mk.injEq] at h
          obtain ⟨rfl, rfl, rfl⟩ := h
          constructor
          · intro k1 e1 hk
            simp only [Option.some.injEq, Prod.mk.injEq] at hk
            obtain ⟨rfl, rfl⟩ := hk
            simp
          · intro htriv
            exfalso
            rcases htriv with hnone | ⟨f1, hf1, hall⟩
            · simp at hnone
            · simp only [Option.some.injEq] at hf1
              subst hf1
              exact hf (hall k e)
    | ok dst2 =>
      simp only [hmk] at h
      exact ih _ _ _ _ _ h

theorem migrateLoop_spec (src : MigSrc) (opts : MigrateOptions) (ctxDone : Nat → Bool)
    (B : Nat) (hB : 0 < B) :
    ∀ (fuel : Nat) (keys : List String) (checkIdx : Nat) (dst : MigDst)
      (acc : MigrateResult) (trace : List (Nat × Nat))
      (res : MigrateResult) (dst' : MigDst) (trace' : List (Nat × Nat))
      (ab : Option MigAbort),
      migrateLoop src opts ctxDone B fuel keys checkIdx dst acc trace
        = (res, dst', trace', ab) →
      res.totalKeys = acc.totalKeys ∧
      acc.migratedKeys ≤ res.migratedKeys ∧
      acc.failedKeys ≤ res.failedKeys ∧
      res.migratedKeys + res.failedKeys
        ≤ acc.migratedKeys + acc.failedKeys + keys.length ∧
      (∃ newErrs, res.errors = acc.errors ++ newErrs) ∧
      res.failedKeys + acc.errors.length = acc.failedKeys + res.errors.length ∧
      (∀ x ∈ dst.data, x ∈ dst'.data) ∧
      (∀ k e, ab = some (.abortedAt k e) → (k, e) ∈ res.errors) ∧
      ((opts.onError = none ∨ ∃ f, opts.onError = some f ∧ ∀ k e, f k e = true) →
        ∀ k e, ab ≠ some (.abortedAt k e)) ∧
      (∃ newTr, trace' = trace ++ newTr ∧
        List.Chain' (fun a b => a.1 < b.1) newTr ∧
        ∀ p ∈ newTr, p.2 = acc.totalKeys ∧
          acc.migratedKeys + acc.failedKeys < p.1 ∧
          p.1 ≤ acc.migratedKeys + acc.failedKeys + keys.length) := by
  intro fuel
  induction fuel with
  | zero =>
    intro keys checkIdx dst acc trace res dst' trace' ab h
    cases keys with
    | nil =>
      simp only [migrateLoop, Prod.mk.injEq] at h
      obtain ⟨rfl, rfl, rfl, rfl⟩ := h
      refine ⟨rfl, le_refl _, le_refl _, by omega, ⟨[], by simp⟩, rfl,
        fun x hx => hx, ?_, ?_, ⟨[], by simp, List.chain'_nil, by simp⟩⟩
      · intro k e hk
        exact absurd hk (by simp)
      · intro _ k e hk
        exact absurd hk (by simp)
    | cons k ks =>
      simp only [migrateLoop, Prod.mk.injEq] at h
      obtain ⟨rfl, rfl, rfl, rfl⟩ := h
      refine ⟨rfl, le_refl _, le_refl _, by omega, ⟨[], by simp⟩, rfl,
        fun x hx => hx, ?_, ?_, ⟨[], by simp, List.chain'_nil, by simp⟩⟩
      · intro k1 e1 hk
        exact absurd hk (by simp)
      · intro _ k1 e1 hk
        exact absurd hk (by simp)
  | succ fuel ih =>
    intro keys checkIdx dst acc trace res dst' trace' ab h
    cases keys with
    | nil =>
      simp only [migrateLoop, Prod.mk.injEq] at h
      obtain ⟨rfl, rfl, rfl, rfl⟩ := h
      refine ⟨rfl, le_refl _, le_refl _, by omega, ⟨[], by simp⟩, rfl,
        fun x hx => hx, ?_, ?_, ⟨[], by simp, List.chain'_nil, by simp⟩⟩
      · intro k e hk
        exact absurd hk (by simp)
      · intro _ k e hk
        exact absurd hk (by simp)
    | cons k ks =>
      simp only [migrateLoop] at h
      by_cases hctx : ctxDone checkIdx
      · rw [if_pos hctx] at h
        simp only [Prod.mk.injEq] at h
        obtain ⟨rfl, rfl, rfl, rfl⟩ := h
        refine ⟨rfl, le_refl _, le_refl _, by omega, ⟨[], by simp⟩, rfl,
          fun x hx => hx, ?_, ?_, ⟨[], by simp, List.chain'_nil, by simp⟩⟩
        · intro k1 e1 hk
          simp at hk
        · intro _ k1 e1 hk
          simp at hk
      · rw [if_neg hctx] at h
        split at h
        next acc1 dstb ke heq =>
          simp only [Prod.mk.injEq] at h
          obtain ⟨rfl, rfl, rfl, rfl⟩ := h
          obtain ⟨c1, c2, c3, c4, _, c6, c7⟩ :=
            processBatch_counts src opts _ _ _ _ _ _ heq
          have cd := processBatch_dst_mono src opts _ _ _ _ _ _ heq
          obtain ⟨ca, cb⟩ := processBatch_abort src opts _ _ _ _ _ _ heq
          have htk : ((k :: ks).take B).length ≤ (k :: ks).length := by
            simp only [List.length_take, List.length_cons]
            omega
          refine ⟨c1, c2, c3, by omega, c6, c7, cd, ?_, ?_,
            ⟨[], by simp, List.chain'_nil, by simp⟩⟩
          · intro k1 e1 hk
            simp only [Option.some.injEq, MigAbort.abortedAt.injEq] at hk
            obtain ⟨hk1, hk2⟩ := hk
            apply ca k1 e1
            rw [← hk1, ← hk2, Prod.mk.eta]
          · intro htriv k1 e1 _
            exact absurd (cb htriv) (by simp)
        next acc1 dstb heq =>
          obtain ⟨c1, c2, c3, c4, c5, ⟨nE1, c6⟩, c7⟩ :=
            processBatch_counts src opts _ _ _ _ _ _ heq
          have cd := processBatch_dst_mono src opts _ _ _ _ _ _ heq
          obtain ⟨i1, i2, i3, i4, ⟨nE2, i5⟩, i6, i7, i8, i9,
            ⟨nT, hT, hChain, hBounds⟩⟩ := ih _ _ _ _ _ _ _ _ _ h
          have hsum : acc1.migratedKeys + acc1.failedKeys
              = acc.migratedKeys + acc.failedKeys + ((k :: ks).take B).length :=
            c5 rfl
          have hlen : ((k :: ks).take B).length + ((k :: ks).drop B).length
              = (k :: ks).length := by
            simp only [List.length_take, List.length_drop, List.length_cons]
            omega
          have htk1 : 1 ≤ ((k :: ks).take B).length := by
            simp only [List.length_take, List.length_cons]
            omega
          refine ⟨?_, ?_, ?_, ?_, ?_, ?_, ?_, i8, i9, ?_⟩
          · rw [i1, c1]
          · omega
          · omega
          · omega
          · exact ⟨nE1 ++ nE2, by rw [i5, c6, List.append_assoc]⟩
          · omega
          · exact fun x hx => i7 x (cd x hx)
          · by_cases hop : opts.hasOnProgress
            · rw [if_pos hop] at hT
              refine ⟨(acc1.migratedKeys + acc1.failedKeys, acc1.totalKeys) :: nT,
                ?_, ?_, ?_⟩
              · rw [hT, List.append_assoc]
                rfl
              · rw [List.chain'_cons']
                refine ⟨?_, hChain⟩
                intro y hy
                exact (hBounds y (List.mem_of_mem_head? hy)).2.1
              · intro p hp
                rcases List.mem_cons.1 hp with rfl | hp'
                · exact ⟨c1, by omega, by omega⟩
                · obtain ⟨b1, b2, b3⟩ := hBounds p hp'
                  exact ⟨by rw [b1, c1], by omega, by omega⟩
            · rw [if_neg hop] at hT
              refine ⟨nT, hT, hChain, ?_⟩
              intro p hp
              obtain ⟨b1, b2, b3⟩ := hBounds p hp
              exact ⟨by rw [b1, c1], by omega, by omega⟩

/-- C3: `Migrate` returns an error exactly when key enumeration fails,
when cancellation is observed at a batch boundary, or when `onError`
returns false (the `ab` component); a per-key failure with `onError`
absent or returning true is recorded (`failedKeys` always equals the
length of `errors`) and never produces an abort; an `onError` abort
returns the partial result with an error naming the offending key, whose
`(key, error)` record is in the partial result, and keys already written
to the destination are never removed (no rollback). -/
theorem migrate_error_contract (src : MigSrc) (dst : MigDst) (opts : MigrateOptions)
    (ctxDone : Nat → Bool) :
    ((∃ e, Migrate src dst opts ctxDone = .error e) ↔
      (∃ e, src.scanKeys (if opts.pattern = "" then "*" else opts.pattern)
        = .error e)) ∧
    (∀ res dst' tr ab, Migrate src dst opts ctxDone = .ok (res, dst', tr, ab) →
      res.failedKeys = res.errors.length ∧
      (∀ x ∈ dst.data, x ∈ dst'.data) ∧
      (∀ k e, ab = some (.abortedAt k e) → (k, e) ∈ res.errors) ∧
      ((opts.onError = none ∨ ∃ f, opts.onError = some f ∧ ∀ k e, f k e = true) →
        ∀ k e, ab ≠ some (.abortedAt k e))) := by
  constructor
  · constructor
    · rintro ⟨e, he⟩
      simp only [Migrate] at he
      split at he
      next e2 heq => exact ⟨e2, heq⟩
      next keys heq =>
        exfalso
        by_cases hdry : opts.dryRun
        · rw [if_pos hdry] at he
          simp at he
        · rw [if_neg hdry] at he
          simp at he
    · rintro ⟨e, he⟩
      exact ⟨"failed to scan keys: " ++ e, by simp only [Migrate, he]⟩
  · intro res dst' tr ab h
    simp only [Migrate] at h
    split at h
    next e2 heq =>
      simp at h
    next keys heq =>
      by_cases hdry : opts.dryRun
      · rw [if_pos hdry] at h
        simp only [Except.ok.injEq, Prod.mk.injEq] at h
        obtain ⟨rfl, rfl, rfl, rfl⟩ := h
        refine ⟨rfl, fun x hx => hx, ?_, ?_⟩
        · intro k e hk
          exact absurd hk (by simp)
        · intro _ k e hk
          exact absurd hk (by simp)
      · rw [if_neg hdry] at h
        simp only [Except.ok.injEq] at h
        have hB : 0 < (if opts.batchSize ≤ 0 then 100 else opts.batchSize.toNat) := by
          split <;> omega
        obtain ⟨_, _, _, _, ⟨nE, l5⟩, l6, l7, l8, l9, _⟩ :=
          migrateLoop_spec src opts ctxDone _ hB _ _ _ _ _ _ _ _ _ _ h
        refine ⟨?_, l7, l8, l9⟩
        simp only [mkResult_failed, mkResult_errors, List.length_nil] at l6
        omega

theorem migrate_error_contract_witness :
    ("b", "get failed: gone") ∈
      (MigrateResult.mk 3 1 1 [("b", "get failed: gone")]).errors :=
  ((migrate_error_contract
      ⟨fun _ => .ok ["a", "b", "c"],
        fun k => if k = "b" then .error "gone" else .ok [1],
        fun _ => .ok 5⟩
      ⟨[], fun _ => false⟩
      ⟨"", 2, 0, false, false, true, some fun _ _ => false⟩
      (fun _ => false)).2
    ⟨3, 1, 1, [("b", "get failed: gone")]⟩
    ⟨[("a", [1], 0)], fun _ => false⟩
    [] (some (.abortedAt "b" "get failed: gone")) rfl).2.2.1
    "b" "get failed: gone" rfl

/-- C4: in every `MigrateResult` returned by `Migrate`,
`migratedKeys + failedKeys ≤ totalKeys`; every `onProgress` invocation
(traced as `(done, total)` with `done = migratedKeys + failedKeys` at
the moment of the call) reports `total = totalKeys` and a `done` that is
positive, at most `totalKeys`, and strictly increasing across batches. -/
theorem migrate_progress_invariant (src : MigSrc) (dst : MigDst)
    (opts : MigrateOptions) (ctxDone : Nat → Bool) (res : MigrateResult)
    (dst' : MigDst) (tr : List (Nat × Nat)) (ab : Option MigAbort)
    (h : Migrate src dst opts ctxDone = .ok (res, dst', tr, ab)) :
    res.migratedKeys + res.failedKeys ≤ res.totalKeys ∧
    (∀ p ∈ tr, p.2 = res.totalKeys ∧ 0 < p.1 ∧ p.1 ≤ res.totalKeys) ∧
    List.Chain' (fun a b => a.1 < b.1) tr := by
  simp only [Migrate] at h
  split at h
  next e2 heq =>
    simp at h
  next keys heq =>
    by_cases hdry : opts.dryRun
    · rw [if_pos hdry] at h
      simp only [Except.ok.injEq, Prod.mk.injEq] at h
      obtain ⟨rfl, rfl, rfl, rfl⟩ := h
      exact ⟨by simp, by simp, List.chain'_nil⟩
    · rw [if_neg hdry] at h
      simp only [Except.ok.injEq] at h
      have hB : 0 < (if opts.batchSize ≤ 0 then 100 else opts.batchSize.toNat) := by
        split <;> omega
      obtain ⟨l1, _, _, l4, _, _, _, _, _, ⟨nT, hT, hChain, hBounds⟩⟩ :=
        migrateLoop_spec src opts ctxDone _ hB _ _ _ _ _ _ _ _ _ _ h
      simp only [mkResult_total, mkResult_migrated, mkResult_failed] at l1 l4
      have hTr : tr = nT := by simpa using hT
      refine ⟨by omega, ?_, by rw [hTr]; exact hChain⟩
      intro p hp
      rw [hTr] at hp
      obtain ⟨b1, b2, b3⟩ := hBounds p hp
      simp only [mkResult_total, mkResult_migrated, mkResult_failed] at b1 b2 b3
      exact ⟨by omega, by omega, by omega⟩

theorem migrate_progress_invariant_witness :
    (MigrateResult.mk 3 2 1 [("b", "get failed: gone")]).migratedKeys +
        (MigrateResult.mk 3 2 1 [("b", "get failed: gone")]).failedKeys ≤
      (MigrateResult.mk 3 2 1 [("b", "get failed: gone")]).totalKeys ∧
    (∀ p ∈ [(2, 3), (3, 3)],
      p.2 = (MigrateResult.mk 3 2 1 [("b", "get failed: gone")]).totalKeys ∧
      0 < p.1 ∧
      p.1 ≤ (MigrateResult.mk 3 2 1 [("b", "get failed: gone")]).totalKeys) ∧
    List.Chain' (fun a b => a.1 < b.1) [(2, 3), (3, 3)] :=
  migrate_progress_invariant
    ⟨fun _ => .ok ["a", "b", "c"],
      fun k => if k = "b" then .error "gone" else .ok [1],
      fun _ => .ok 5⟩
    ⟨[], fun _ => false⟩
    ⟨"", 2, 0, false, false, true, none⟩
    (fun _ => false)
    ⟨3, 2, 1, [("b", "get failed: gone")]⟩
    ⟨[("a", [1], 0), ("c", [1], 0)], fun _ => false⟩
    [(2, 3), (3, 3)] none rfl

end Gibrun
